import Mathlib

/-!
Verification development for the gravity-gallery image server.

The definitions below are a shallow embedding of `server.py` (and, where the
claims reference it, `server_fixed.py`).  Pure string/path manipulation is
translated directly; filesystem facts (existence of files, directory walks,
folder timestamps) are passed in as explicit parameters; the SQLite `images`
table is modelled as a list of `ImageRecord`; nondeterministic shuffles are
passed in as permutation oracles.  Paths are POSIX style: an absolute
filesystem path is represented by its list of segments, and the managed root
`ROOT_DIR` is such a segment list.
-/

namespace GGallery

open scoped List

/-! ### Character and string helpers -/

/-- Model of replacing each backslash by a forward slash, as in
`path.replace(chr(92), chr(47))` used throughout `server.py`. -/
def toSlash (c : Char) : Char :=
  if c = '\\' then '/' else c

/-- Python whitespace test for `str.strip()` (ASCII whitespace; the server only
ever strips ASCII request paths). -/
def pySpace (c : Char) : Bool :=
  c = ' ' || c = '\t' || c = '\n' || c = '\r' || c = '\x0b' || c = '\x0c'

/-- Model of `str.strip('/')`: drop every leading and trailing slash. -/
def stripSlashes (cs : List Char) : List Char :=
  ((cs.dropWhile (fun c => c = '/')).reverse.dropWhile (fun c => c = '/')).reverse

/-- Model of `str.strip()`: drop leading and trailing whitespace. -/
def stripWs (cs : List Char) : List Char :=
  ((cs.dropWhile pySpace).reverse.dropWhile pySpace).reverse

/-- Model of the single-pass, non-overlapping `str.replace("/./", "/")` from
`normalize_rel_path` in `server.py`. -/
def replaceDotSegs : List Char → List Char
  | '/' :: '.' :: '/' :: rest => '/' :: replaceDotSegs rest
  | c :: rest => c :: replaceDotSegs rest
  | [] => []

/-- Model of `normalize_rel_path` in `server.py`:
`(path or "").replace(backslash, slash).strip('/').replace('/./', '/')`. -/
def normalize_rel_path (p : String) : String :=
  String.mk (replaceDotSegs (stripSlashes (p.data.map toSlash)))

/-! ### POSIX path resolution (`os.path.abspath` / `os.path.join`) -/

/-- Split a character list at every '/' (Python `str.split('/')`, keeping
empty segments). -/
def splitSlashChars : List Char → List (List Char)
  | [] => [[]]
  | c :: rest =>
    if c = '/' then [] :: splitSlashChars rest
    else
      match splitSlashChars rest with
      | [] => [[c]]
      | g :: gs => (c :: g) :: gs

/-- Segments of a path string. -/
def splitSlash (s : String) : List String :=
  (splitSlashChars s.data).map String.mk

/-- Does the string start with a '/' (an absolute POSIX path)? -/
def startsWithSlash (s : String) : Bool :=
  match s.data with
  | '/' :: _ => true
  | _ => false

/-- Segment-level model of `os.path.normpath` on an absolute path: empty and
"." segments are dropped and ".." pops the last segment (staying put at the
filesystem root), exactly as POSIX `normpath` behaves for absolute paths. -/
def resolveSegs (acc : List String) : List String → List String
  | [] => acc
  | s :: rest =>
    if s = "" || s = "." then resolveSegs acc rest
    else if s = ".." then resolveSegs acc.dropLast rest
    else resolveSegs (acc ++ [s]) rest

/-- Model of `os.path.abspath(os.path.join(root, p))` where `root` is the
already-canonical absolute `ROOT_DIR`: a `p` starting with '/' replaces the
root (Python `os.path.join` semantics), otherwise the segments are appended
and the whole path is normalised. -/
def absJoin (root : List String) (p : String) : List String :=
  if startsWithSlash p then resolveSegs [] (splitSlash p)
  else resolveSegs [] (root ++ splitSlash p)

/-! ### Path sandbox -/

/-- Model of `is_path_in_root_dir` in `server.py`: empty and "." are inside;
otherwise resolve against the root and test
`os.path.commonpath([ROOT_DIR, full]) == ROOT_DIR`, which for two absolute
paths is exactly the segment-prefix test. -/
def is_path_in_root_dir (root : List String) (path : String) : Bool :=
  if path = "" || path = "." then true
  else root.isPrefixOf (absJoin root path)

/-- Model of `is_db_path_under_root` in `server.py` (same resolution, without
the empty-path shortcut). -/
def is_db_path_under_root (root : List String) (dbPath : String) : Bool :=
  root.isPrefixOf (absJoin root dbPath)

/-- Tail of the first-occurrence dedup: elements already seen are skipped.
-/
def dedupKeepFirstAux (seen : List String) : List String → List String
  | [] => []
  | x :: xs =>
    if x ∈ seen then dedupKeepFirstAux seen xs
    else x :: dedupKeepFirstAux (x :: seen) xs

/-- Keep the first occurrence of every element, in order: the semantics of
Python `list(dict.fromkeys(xs))`. -/
def dedupKeepFirst (l : List String) : List String :=
  dedupKeepFirstAux [] l

/-- Per-element step of `sanitize_playlist_paths` in `server.py`: empty or "."
becomes "."; otherwise normalise and, when parent-directory access is off and
the path is out of root, coerce to ".". -/
def sanitizeOne (allow : Bool) (root : List String) (p : String) : String :=
  if p = "" || p = "." then "."
  else
    let rel := normalize_rel_path p
    if !allow && !is_path_in_root_dir root rel then "." else rel

/-- Model of `sanitize_playlist_paths` in `server.py`. -/
def sanitize_playlist_paths (allow : Bool) (root : List String) (paths : List String) :
    List String :=
  dedupKeepFirst (paths.map (sanitizeOne allow root))

/-! ### SQLite LIKE -/

/-- All suffixes of a character list, longest first, ending with `[]`. -/
def charTails : List Char → List (List Char)
  | [] => [[]]
  | c :: cs => (c :: cs) :: charTails cs

/-- Model of the SQLite `LIKE` operator (no ESCAPE clause), as used by
`query_images_from_db` in `server.py`: `%` matches any run of characters
(equivalently, some suffix of the subject matches the rest of the pattern),
`_` matches exactly one, and letters compare ASCII-case-insensitively
(`Char.toLower` is exactly the A-Z fold SQLite applies). -/
def likeMatch : List Char → List Char → Bool
  | [], s => s.isEmpty
  | p :: ps, s =>
    if p = '%' then (charTails s).any (fun t => likeMatch ps t)
    else if p = '_' then
      match s with
      | [] => false
      | _ :: s2 => likeMatch ps s2
    else
      match s with
      | [] => false
      | c :: s2 => (p.toLower = c.toLower) && likeMatch ps s2

/-- String-level wrapper for `likeMatch`. -/
def likeMatchStr (pat s : String) : Bool :=
  likeMatch pat.data s.data

/-! ### Data model -/

/-- Row of the SQLite `images` table (the Index): `path` is the primary key,
`mtime` the file modification time (modelled as an integer), `is_landscape`
is `width >= height`. Width and height are irrelevant to every claim and
omitted. -/
structure ImageRecord where
  path : String
  mtime : Int
  is_landscape : Bool
deriving DecidableEq, Repr

/-- Model of the body of `PlaylistRequest` (`server.py`). -/
structure PlaylistRequest where
  paths : List String
  sort : String
  orientation : String
  direction : String
  current_path : Option String
deriving DecidableEq, Repr

/-! ### The Index query -/

/-- Orientation filter appended to the SQL query in `query_images_from_db`:
`Landscape` keeps `is_landscape = 1` rows, `Portrait` keeps
`is_landscape = 0` rows, anything else keeps all rows. -/
def orientationOk (o : String) (isl : Bool) : Bool :=
  if o = "Landscape" then isl
  else if o = "Portrait" then !isl
  else true

/-- Per-prefix SQL condition of `query_images_from_db` in `server.py`: a root
prefix ("" or ".") contributes `path NOT LIKE '../%'`, any other prefix `p`
contributes `path LIKE p || '/%'`. -/
def pathCondition (p : String) (path : String) : Bool :=
  if p = "" || p = "." then !likeMatchStr "../%" path
  else likeMatchStr (p ++ "/%") path

/-- Model of `query_images_from_db` in `server.py`: the rows of the `images`
table whose path satisfies some prefix condition, intersected with the
orientation filter (rows returned in table order). -/
def query_images_from_db (db : List ImageRecord) (ps : List String) (o : String) :
    List ImageRecord :=
  db.filter (fun r => ps.any (fun p => pathCondition p r.path) && orientationOk o r.is_landscape)

/-! ### Deduplication -/

/-- One step of the Python dict build `dedup_results[item.path] = item`:
replace the entry with the same key in place, otherwise append. -/
def updateAssoc (acc : List ImageRecord) (r : ImageRecord) : List ImageRecord :=
  match acc with
  | [] => [r]
  | x :: xs => if x.path = r.path then r :: xs else x :: updateAssoc xs r

/-- Model of the dedup loop of `get_playlist` in `server.py` (dict keyed by
path, then `list(values())`): key order is first occurrence, value is the
last record with that path. -/
def dedupByPath (rs : List ImageRecord) : List ImageRecord :=
  rs.foldl updateAssoc []

/-! ### Natural sort (`natural_sort_key` in `server_fixed.py`) -/

/-- Auxiliary state machine for `re.split(r'(\d+)', text)`: `cur` is the
current chunk reversed, `curIsDigit` its kind.  The output alternates
non-digit and digit runs, starting and ending with a (possibly empty)
non-digit chunk, exactly as the capturing `re.split` does. -/
def sdrAux (cur : List Char) (curIsDigit : Bool) : List Char → List (List Char)
  | [] => if curIsDigit then [cur.reverse, []] else [cur.reverse]
  | c :: cs =>
    if c.isDigit = curIsDigit then sdrAux (c :: cur) curIsDigit cs
    else cur.reverse :: sdrAux [c] c.isDigit cs

/-- Model of `re.split(r'(\d+)', text)`. -/
def splitDigitRuns (cs : List Char) : List (List Char) :=
  sdrAux [] false cs

/-- Numeric value of a digit run (Python `int(text)`). -/
def natOfDigits (cs : List Char) : Nat :=
  cs.foldl (fun a c => a * 10 + (c.toNat - 48)) 0

/-- One chunk of a natural-sort key: a number or a lowered character list
(Python compares strings by code points, i.e. lexicographically on their
character lists), ordered number-before-text lexicographically.  (The mixed
comparison is never exercised between two keys produced by
`natural_sort_key`, whose chunks alternate kinds in lockstep — mirroring
that Python never compares an `int` chunk with a `str` chunk.) -/
abbrev NatChunk := Lex (Sum Nat (List Char))

/-- Model of `atoi` inside `natural_sort_key` in `server_fixed.py`:
`int(text) if text.isdigit() else text.lower()` (ASCII lowering; all digit
runs produced by the split are non-empty and all-digits). -/
def atoiChunk (cs : List Char) : NatChunk :=
  if !cs.isEmpty && cs.all Char.isDigit then toLex (Sum.inl (natOfDigits cs))
  else toLex (Sum.inr (cs.map Char.toLower))

/-- Model of `natural_sort_key` in `server_fixed.py` (and of the library
`natsort_key` used at the same spot of `server.py`): split on digit runs,
numbers compare numerically, text case-insensitively. -/
def natural_sort_key (s : String) : List NatChunk :=
  (splitDigitRuns s.data).map atoiChunk

/-- Key comparison used to sort records by name. -/
def nameLe (x y : ImageRecord) : Prop :=
  natural_sort_key x.path ≤ natural_sort_key y.path

instance : DecidableRel nameLe := fun x y =>
  inferInstanceAs (Decidable (natural_sort_key x.path ≤ natural_sort_key y.path))

/-- Python `list.sort(key=...)` is a stable sort; a stable sort is
extensionally determined by the key order, so insertion sort is a faithful
model of Timsort here.  Sort by natural key of the full path
(`results.sort(key=natsort_key(path))`). -/
def sortByName (rs : List ImageRecord) : List ImageRecord :=
  List.insertionSort nameLe rs

/-- Key comparison for `sort == 'date'`:
`results.sort(key=mtime, reverse=True)` is the stable descending sort. -/
def dateLe (x y : ImageRecord) : Prop :=
  y.mtime ≤ x.mtime

instance : DecidableRel dateLe := fun x y =>
  inferInstanceAs (Decidable (y.mtime ≤ x.mtime))

/-- Stable descending-by-mtime sort. -/
def sortByDate (rs : List ImageRecord) : List ImageRecord :=
  List.insertionSort dateLe rs

/-! ### Grouping by parent directory (`subfolder_random` / `subfolder_date`) -/

/-- Character-level `posixpath.dirname`: everything before the final '/',
with trailing slashes stripped unless the result is all slashes. -/
def dirnameChars (cs : List Char) : List Char :=
  let rest := cs.reverse.dropWhile (fun c => c ≠ '/')
  if rest.isEmpty then []
  else if rest.all (fun c => c = '/') then rest.reverse
  else (rest.dropWhile (fun c => c = '/')).reverse

/-- Model of `os.path.dirname` on the forward-slash relative paths stored in
the Index. -/
def dirname (s : String) : String :=
  String.mk (dirnameChars s.data)

/-- Group keys in first-occurrence order: the key order of the Python dict
`subfolder_map`. -/
def folderKeys (rs : List ImageRecord) : List String :=
  dedupKeepFirst (rs.map (fun r => dirname r.path))

/-- Records of one group, in input order: the dict groups by appending, so
each group is the in-order sublist with that parent. -/
def groupItems (rs : List ImageRecord) (k : String) : List ImageRecord :=
  rs.filter (fun r => dirname r.path = k)

/-! ### The sort phase of `get_playlist` (`server.py`, step 3) -/

/-- Sort dispatch of `get_playlist`.  The two shuffles (`random.shuffle` on
the record list, resp. on the subfolder key list) are supplied as oracles
`shR` and `shF`; `fMtime` supplies `os.path.getmtime` of a parent folder
(with the `except` fallback of 0 folded into the oracle).  Unrecognized
modes fall through to the natural name sort. -/
def sortPhase (shR : List ImageRecord → List ImageRecord)
    (shF : List String → List String) (fMtime : String → Int)
    (sortMode : String) (results : List ImageRecord) : List String :=
  if sortMode = "shuffle" then (shR results).map (fun r => r.path)
  else if sortMode = "name" then (sortByName results).map (fun r => r.path)
  else if sortMode = "date" then (sortByDate results).map (fun r => r.path)
  else if sortMode = "subfolder_random" then
    (shF (folderKeys results)).flatMap
      (fun k => (sortByName (groupItems results k)).map (fun r => r.path))
  else if sortMode = "subfolder_date" then
    (List.insertionSort (fun a b => fMtime a ≤ fMtime b) (folderKeys results)).flatMap
      (fun k => (sortByName (groupItems results k)).map (fun r => r.path))
  else (sortByName results).map (fun r => r.path)

/-- Direction step of `get_playlist`: reverse the list when the request says
`reverse`, after sorting. -/
def applyDirection (direction : String) (l : List String) : List String :=
  if direction = "reverse" then l.reverse else l

/-- Rotation step of `get_playlist` (`server.py` step 3b): if a current path
was sent, it is normalised; when it is non-empty, permitted by the sandbox
flag, and present in the list, the list is rotated so it comes first. -/
def rotateAtAnchor (allow : Bool) (root : List String) (cur : Option String)
    (l : List String) : List String :=
  match cur with
  | none => l
  | some cp0 =>
    if cp0 = "" then l
    else
      let cp := normalize_rel_path cp0
      if cp ≠ "" ∧ (allow || is_path_in_root_dir root cp) = true ∧ cp ∈ l then
        l.drop (l.indexOf cp) ++ l.take (l.indexOf cp)
      else l

/-- Model of the pure pipeline of `POST /api/playlist` (`get_playlist` in
`server.py`) as a function of the final Index state `db` (i.e. after the
external sync and missing-path backfill steps have already updated the
database): sanitize the requested prefixes, query, dedup by path, sort,
apply direction, rotate at the anchor. -/
def buildPlaylist (root : List String) (allow : Bool) (db : List ImageRecord)
    (shR : List ImageRecord → List ImageRecord) (shF : List String → List String)
    (fMtime : String → Int) (req : PlaylistRequest) : List String :=
  if req.paths = [] then []
  else
    let ps := sanitize_playlist_paths allow root req.paths
    let results := dedupByPath (query_images_from_db db ps req.orientation)
    rotateAtAnchor allow root req.current_path
      (applyDirection req.direction (sortPhase shR shF fMtime req.sort results))

/-- The sequence of `get_playlist` after the sort phase and the direction
reversal, i.e. just before the anchor rotation (step 3b). -/
def playlistMid (root : List String) (allow : Bool) (db : List ImageRecord)
    (shR : List ImageRecord → List ImageRecord) (shF : List String → List String)
    (fMtime : String → Int) (req : PlaylistRequest) : List String :=
  applyDirection req.direction (sortPhase shR shF fMtime req.sort
    (dedupByPath (query_images_from_db db
      (sanitize_playlist_paths allow root req.paths) req.orientation)))

/-! ### Preloader (`preload_surrounding_images` in `server.py`) -/

/-- Indices visited by the preload loop
`for i in range(current_index - w, current_index + w + 1)` with
`wrapped_index = i % playlist_len` (Python `%` on a positive modulus is
`Int.emod`, always non-negative).  `w` is the window radius
(`preload_window`, 100 in the source). -/
def preloadIndicesW (len : Nat) (center : Int) (w : Nat) : List Nat :=
  (List.range (2 * w + 1)).map
    (fun k => ((center - (w : Int) + Int.ofNat k).emod (len : Int)).toNat)

/-- Paths the loop looks at, in visit order. -/
def preloadAttempts (playlist : List String) (center : Int) (w : Nat) : List String :=
  (preloadIndicesW playlist.length center w).map (fun i => playlist.getD i "")

/-- Model of `preload_surrounding_images`: nothing on an empty playlist;
otherwise every path in the ±100 window is attempted and those for which the
filesystem oracle succeeds are handed to the content cache (the list
returned), all other per-file failures being silently skipped; the loop
always terminates.  Returns the loaded paths and `loaded_count`. -/
def preload_surrounding_images (root : List String) (fsOk : List String → Bool)
    (playlist : List String) (center : Int) : List String × Nat :=
  if playlist.length = 0 then ([], 0)
  else
    let loaded := (preloadAttempts playlist center 100).filter (fun p => fsOk (absJoin root p))
    (loaded, loaded.length)

/-! ### Root-wide reconcile (`scan_library_task` in `server.py`) -/

/-- Delete set of `scan_library_task`: Index paths that resolve inside the
managed root and are absent from the walk (`fsPaths`). -/
def scanDeletes (root : List String) (dbPaths : List String) (fsPaths : List String) :
    List String :=
  dbPaths.filter (fun p => is_db_path_under_root root p && !fsPaths.contains p)

/-- Database effect of one `scan_library_task` pass: apply the deletes, then
the `INSERT OR REPLACE` upserts produced by metadata extraction of the
changed walk files. -/
def applyReconcile (root : List String) (db : List ImageRecord) (fsPaths : List String)
    (upserts : List ImageRecord) : List ImageRecord :=
  let dels := scanDeletes root (db.map (fun r => r.path)) fsPaths
  upserts.foldl updateAssoc (db.filter (fun r => !dels.contains r.path))

/-! ### Session store and restore (`restore_playlist` in `server.py`) -/

/-- Install or replace the entry of one client in a key-value map (the
`user_sessions[ip] = session` / `INSERT OR REPLACE INTO playlists` effect;
LRU eviction is capacity behaviour irrelevant to the claims). -/
def putEntry (m : List (String × List String)) (k : String) (v : List String) :
    List (String × List String) :=
  m.filter (fun e => e.1 ≠ k) ++ [(k, v)]

/-- In-memory session map and durable playlists table. -/
structure SessionState where
  sessions : List (String × List String)
  durable : List (String × List String)
deriving DecidableEq, Repr

/-- Successful response of `POST /api/restore-playlist`, plus the clamped
index handed to the background preload task. -/
structure RestoreResult where
  valid_count : Nat
  original_count : Nat
  playlist : List String
  preload_center : Int
deriving DecidableEq, Repr

/-- Model of `restore_playlist` in `server.py`.  `fsIsFile` decides
`os.path.exists(full) and os.path.isfile(full)` for a resolved absolute
path.  `none` models the two HTTP 400 rejections (empty submission, no
surviving path); on failure the session state is returned untouched. -/
def restore_playlist (fsIsFile : List String → Bool) (root : List String)
    (st : SessionState) (clientId : String) (playlist : List String)
    (current_index : Int) : SessionState × Option RestoreResult :=
  if playlist = [] then (st, none)
  else
    let valid_paths := playlist.filter (fun p => fsIsFile (absJoin root p))
    if valid_paths = [] then (st, none)
    else
      let st2 : SessionState :=
        { sessions := putEntry st.sessions clientId valid_paths
          durable := putEntry st.durable clientId valid_paths }
      let center : Int := max 0 (min current_index ((valid_paths.length : Int) - 1))
      (st2,
        some { valid_count := valid_paths.length, original_count := playlist.length,
               playlist := valid_paths, preload_center := center })

/-! ### External-path synchronizer marker (`server.py`) -/

/-- External prefixes of one playlist request (`get_playlist` step 1):
sanitized request paths that are neither root nor inside the root,
normalised again and deduplicated via `dict.fromkeys`. -/
def externalPathsOf (allow : Bool) (root : List String) (reqPaths : List String) :
    List String :=
  dedupKeepFirst
    (((sanitize_playlist_paths allow root reqPaths).filter
        (fun p => !(p = "" || p = ".") && !is_path_in_root_dir root p)).map normalize_rel_path)

/-- One request against the marker set `external_synced_paths_this_boot`:
each external prefix not yet in the marker triggers a heavy resync
(`sync_external_path_to_db`) and is added.  Returns the prefixes actually
resynced and the new marker. -/
def syncStep (allow : Bool) (root : List String) (marker : List String)
    (reqPaths : List String) : List String × List String :=
  let ext := externalPathsOf allow root reqPaths
  let syncs := ext.filter (fun e => !marker.contains e)
  (syncs, marker ++ syncs)

/-- Heavy resyncs performed along a sequence of playlist requests within one
process lifetime, request by request. -/
def processSyncTrace (allow : Bool) (root : List String) (marker : List String) :
    List (List String) → List (List String)
  | [] => []
  | req :: rest =>
    (syncStep allow root marker req).1 ::
      processSyncTrace allow root (syncStep allow root marker req).2 rest

/-- Marker value installed by `lifespan` at process start
(`external_synced_paths_this_boot.clear()`). -/
def bootMarker : List String := []

/-! ### File serving (`serve_file_core` in `server.py`) -/

/-- Outcome of `serve_file_core` as far as the claims are concerned. -/
inductive ServeOutcome
  | forbidden
  | notFound
  | ok (rel : String)
deriving DecidableEq, Repr

/-- Model of `resolve_relative_file_path`: strip whitespace, slashes
forward, drop one leading '/'. -/
def resolve_relative_file_path (p : String) : String :=
  String.mk
    (match (stripWs p.data).map toSlash with
     | '/' :: rest => rest
     | l => l)

/-- Model of `serve_file_core` up to the file response: the sandbox check
(403) runs before any filesystem access, then existence (404), then the
cached read. -/
def serve_file_core (allow : Bool) (root : List String) (fsIsFile : List String → Bool)
    (pathValue : String) : ServeOutcome :=
  let rel := resolve_relative_file_path pathValue
  if !allow && !is_path_in_root_dir root rel then ServeOutcome.forbidden
  else if !fsIsFile (absJoin root rel) then ServeOutcome.notFound
  else ServeOutcome.ok rel

/-! ### Hot-reloadable flag (`allow_parent_dir_access` re-read per request) -/

/-- Events touching the parent-access flag: the two runtime-config endpoints
write `os.environ`, a file request reads it afresh through
`allow_parent_dir_access()`. -/
inductive ReqEvent
  | setFlag (b : Bool)
  | toggleFlag
  | serveReq (p : String)
deriving DecidableEq, Repr

/-- Flag value after a list of events (initial value `init` is whatever the
environment held at process start). -/
def flagAfter (init : Bool) : List ReqEvent → Bool
  | [] => init
  | ReqEvent.setFlag b :: rest => flagAfter b rest
  | ReqEvent.toggleFlag :: rest => flagAfter (!init) rest
  | ReqEvent.serveReq _ :: rest => flagAfter init rest

/-- Outcomes of the serve requests in an event list, each computed from the
flag value current at that request (the code calls
`allow_parent_dir_access()` inside every handler, it never caches it). -/
def traceOutcomes (root : List String) (fsIsFile : List String → Bool) (init : Bool) :
    List ReqEvent → List ServeOutcome
  | [] => []
  | ReqEvent.setFlag b :: rest => traceOutcomes root fsIsFile b rest
  | ReqEvent.toggleFlag :: rest => traceOutcomes root fsIsFile (!init) rest
  | ReqEvent.serveReq p :: rest =>
    serve_file_core init root fsIsFile p :: traceOutcomes root fsIsFile init rest

/-! ### Browse (`browse_folder` in `server.py`) -/

/-- Longest common segment run of two paths. -/
def commonLen : List String → List String → Nat
  | a :: as, b :: bs => if a = b then 1 + commonLen as bs else 0
  | _, _ => 0

/-- Segment-level `os.path.relpath(target, root)`. -/
def relpathSegs (target root : List String) : List String :=
  let k := commonLen target root
  List.replicate (root.length - k) ".." ++ target.drop k

/-- String form of `os.path.relpath`. -/
def relpathString (target root : List String) : String :=
  let segs := relpathSegs target root
  if segs = [] then "." else String.intercalate "/" segs

/-- Model of the path decision of `browse_folder` in `server.py`: the
directory that will be listed and the `rel_path` reported; an out-of-root
path with parent access disabled is coerced to the root itself. -/
def browse_target (allow : Bool) (root : List String) (path : String) :
    List String × String :=
  if path = "" || path = "." then (root, "")
  else
    let normalized := normalize_rel_path path
    if !allow && !is_path_in_root_dir root normalized then (root, "")
    else (absJoin root normalized, relpathString (absJoin root normalized) root)

/-! ### Spec-side predicates (for comparison with the code's query) -/

/-- True when a prefix string contains no SQL LIKE wildcard characters (the
side condition under which the query's `LIKE p || '/%'` is a plain prefix
test). -/
def noWildcards (s : String) : Bool :=
  s.data.all (fun c => c ≠ '%' && c ≠ '_')

/-- Selection predicate as claim C2 words it: a record is selected when its
path equals the prefix or is nested exactly one level under it (root prefix:
everything not starting with "../"). -/
def specSelectsOneLevel (p : String) (path : String) : Bool :=
  if p = "" || p = "." then !"../".data.isPrefixOf path.data
  else
    path = p ||
      ((p ++ "/").data.isPrefixOf path.data &&
        !(path.data.drop (p.length + 1)).isEmpty &&
        !(path.data.drop (p.length + 1)).contains '/')

/-- Selection the code actually performs for a wildcard-free non-root prefix:
the path starts, ASCII-case-insensitively, with the prefix followed by '/',
at any nesting depth, and a path equal to the prefix is not selected. -/
def specSelectsNested (p : String) (path : String) : Bool :=
  if p = "" || p = "." then !"../".data.isPrefixOf path.data
  else (p.data.map Char.toLower ++ ['/']).isPrefixOf (path.data.map Char.toLower)

/-- Concrete managed root used by the closed witness statements. -/
def root0 : List String := ["srv", "gallery"]

/-! ## Helper lemmas -/

theorem mem_updateAssoc {acc : List ImageRecord} {r x : ImageRecord}
    (h : x ∈ updateAssoc acc r) : x ∈ acc ∨ x = r := by
  induction acc with
  | nil =>
    simp [updateAssoc] at h
    exact Or.inr h
  | cons y ys ih =>
    rw [updateAssoc] at h
    by_cases hy : y.path = r.path
    · rw [if_pos hy] at h
      rcases List.mem_cons.1 h with h1 | h1
      · exact Or.inr h1
      · exact Or.inl (List.mem_cons_of_mem _ h1)
    · rw [if_neg hy] at h
      rcases List.mem_cons.1 h with h1 | h1
      · exact Or.inl (h1 ▸ List.mem_cons_self _ _)
      · rcases ih h1 with h2 | h2
        · exact Or.inl (List.mem_cons_of_mem _ h2)
        · exact Or.inr h2

theorem updateAssoc_paths (acc : List ImageRecord) (r : ImageRecord) :
    (updateAssoc acc r).map (fun x => x.path) =
      if r.path ∈ acc.map (fun x => x.path) then acc.map (fun x => x.path)
      else acc.map (fun x => x.path) ++ [r.path] := by
  induction acc with
  | nil => simp [updateAssoc]
  | cons y ys ih =>
    rw [updateAssoc]
    by_cases hy : y.path = r.path
    · rw [if_pos hy]
      simp [hy]
    · rw [if_neg hy]
      have hne : ¬ r.path = y.path := fun h => hy h.symm
      by_cases hmem : r.path ∈ ys.map (fun x => x.path)
      · simp [hmem, hne, ih]
      · simp [hmem, hne, ih]

theorem mem_updateAssoc_of_ne {acc : List ImageRecord} {r x : ImageRecord}
    (hx : x ∈ acc) (hne : x.path ≠ r.path) : x ∈ updateAssoc acc r := by
  induction acc with
  | nil => cases hx
  | cons y ys ih =>
    rw [updateAssoc]
    by_cases hy : y.path = r.path
    · rw [if_pos hy]
      rcases List.mem_cons.1 hx with h1 | h1
      · exact absurd (h1 ▸ hy) hne
      · exact List.mem_cons_of_mem _ h1
    · rw [if_neg hy]
      rcases List.mem_cons.1 hx with h1 | h1
      · exact h1 ▸ List.mem_cons_self _ _
      · exact List.mem_cons_of_mem _ (ih h1)

theorem nodup_updateAssoc {acc : List ImageRecord} {r : ImageRecord}
    (h : (acc.map (fun x => x.path)).Nodup) :
    ((updateAssoc acc r).map (fun x => x.path)).Nodup := by
  rw [updateAssoc_paths]
  by_cases hmem : r.path ∈ acc.map (fun x => x.path)
  · rwa [if_pos hmem]
  · rw [if_neg hmem]
    refine List.Nodup.append h (List.nodup_singleton _) ?_
    intro a ha hb
    rw [List.mem_singleton] at hb
    exact hmem (hb ▸ ha)

theorem mem_foldl_updateAssoc {l : List ImageRecord} {acc : List ImageRecord}
    {x : ImageRecord} (h : x ∈ l.foldl updateAssoc acc) : x ∈ acc ∨ x ∈ l := by
  induction l generalizing acc with
  | nil => exact Or.inl h
  | cons r l ih =>
    rw [List.foldl_cons] at h
    rcases ih h with h1 | h1
    · rcases mem_updateAssoc h1 with h2 | h2
      · exact Or.inl h2
      · exact Or.inr (h2 ▸ List.mem_cons_self _ _)
    · exact Or.inr (List.mem_cons_of_mem _ h1)

theorem paths_foldl_updateAssoc {l : List ImageRecord} {acc : List ImageRecord} {q : String} :
    q ∈ (l.foldl updateAssoc acc).map (fun x => x.path) ↔
      q ∈ acc.map (fun x => x.path) ∨ q ∈ l.map (fun x => x.path) := by
  induction l generalizing acc with
  | nil => simp
  | cons r l ih =>
    rw [List.foldl_cons, ih, updateAssoc_paths]
    by_cases hmem : r.path ∈ acc.map (fun x => x.path)
    · rw [if_pos hmem]
      constructor
      · rintro (h | h)
        · exact Or.inl h
        · exact Or.inr (List.mem_cons_of_mem _ h)
      · rintro (h | h)
        · exact Or.inl h
        · rcases List.mem_cons.1 h with h1 | h1
          · exact Or.inl (h1 ▸ hmem)
          · exact Or.inr h1
    · rw [if_neg hmem]
      simp only [List.mem_append, List.mem_singleton, List.map_cons, List.mem_cons]
      tauto

theorem mem_foldl_updateAssoc_of_ne {l : List ImageRecord} {acc : List ImageRecord}
    {x : ImageRecord} (hx : x ∈ acc) (hne : x.path ∉ l.map (fun u => u.path)) :
    x ∈ l.foldl updateAssoc acc := by
  induction l generalizing acc with
  | nil => exact hx
  | cons r l ih =>
    rw [List.foldl_cons]
    refine ih (mem_updateAssoc_of_ne hx ?_) ?_
    · exact fun h => hne (by simp [h])
    · exact fun h => hne (List.mem_cons_of_mem _ h)

theorem nodup_foldl_updateAssoc {l : List ImageRecord} {acc : List ImageRecord}
    (h : (acc.map (fun x => x.path)).Nodup) :
    ((l.foldl updateAssoc acc).map (fun x => x.path)).Nodup := by
  induction l generalizing acc with
  | nil => exact h
  | cons r l ih => exact ih (nodup_updateAssoc h)

theorem dedupByPath_subset {rs : List ImageRecord} {x : ImageRecord}
    (h : x ∈ dedupByPath rs) : x ∈ rs := by
  rcases mem_foldl_updateAssoc h with h1 | h1
  · cases h1
  · exact h1

theorem dedupByPath_nodup (rs : List ImageRecord) :
    ((dedupByPath rs).map (fun x => x.path)).Nodup :=
  nodup_foldl_updateAssoc List.nodup_nil

theorem dedupByPath_paths {rs : List ImageRecord} {q : String} :
    q ∈ (dedupByPath rs).map (fun x => x.path) ↔ q ∈ rs.map (fun x => x.path) := by
  rw [dedupByPath, paths_foldl_updateAssoc]
  simp

theorem mem_dedupKeepFirstAux {l : List String} :
    ∀ {seen : List String} {x : String},
      (x ∈ dedupKeepFirstAux seen l ↔ x ∈ l ∧ x ∉ seen) := by
  induction l with
  | nil => simp [dedupKeepFirstAux]
  | cons y ys ih =>
    intro seen x
    rw [dedupKeepFirstAux]
    by_cases hy : y ∈ seen
    · rw [if_pos hy, ih]
      constructor
      · rintro ⟨h1, h2⟩
        exact ⟨List.mem_cons_of_mem _ h1, h2⟩
      · rintro ⟨h1, h2⟩
        rcases List.mem_cons.1 h1 with h3 | h3
        · exact absurd (h3 ▸ hy) h2
        · exact ⟨h3, h2⟩
    · rw [if_neg hy]
      by_cases hx : x = y
      · subst hx
        simp [hy]
      · simp only [List.mem_cons, hx, false_or]
        rw [ih]
        simp [hx]

theorem mem_dedupKeepFirst {l : List String} {x : String} :
    x ∈ dedupKeepFirst l ↔ x ∈ l := by
  rw [dedupKeepFirst, mem_dedupKeepFirstAux]
  simp

theorem nodup_dedupKeepFirstAux (l : List String) :
    ∀ seen : List String, (dedupKeepFirstAux seen l).Nodup := by
  induction l with
  | nil =>
    intro seen
    rw [dedupKeepFirstAux]
    exact List.nodup_nil
  | cons y ys ih =>
    intro seen
    rw [dedupKeepFirstAux]
    by_cases hy : y ∈ seen
    · rw [if_pos hy]
      exact ih seen
    · rw [if_neg hy]
      refine List.nodup_cons.2 ⟨fun hmem => ?_, ih (y :: seen)⟩
      exact (mem_dedupKeepFirstAux.1 hmem).2 (List.mem_cons_self _ _)

theorem nodup_dedupKeepFirst (l : List String) : (dedupKeepFirst l).Nodup :=
  nodup_dedupKeepFirstAux l []

theorem flatMap_filter_perm (f : ImageRecord → String) :
    ∀ (ks : List String) (l : List ImageRecord), ks.Nodup → (∀ a ∈ l, f a ∈ ks) →
      (ks.flatMap fun k => l.filter fun a => f a = k) ~ l := by
  intro ks
  induction ks with
  | nil =>
    intro l _ hcov
    have : l = [] := List.eq_nil_iff_forall_not_mem.2 fun a ha => by
      simpa using hcov a ha
    simp [this]
  | cons k ks ih =>
    intro l hnd hcov
    rw [List.flatMap_cons]
    have hks : k ∉ ks := (List.nodup_cons.1 hnd).1
    have hstep : ∀ k2 ∈ ks,
        (l.filter fun a => f a = k2) =
          ((l.filter fun a => ¬ f a = k).filter fun a => f a = k2) := by
      intro k2 hk2
      have hk2k : k2 ≠ k := fun h => hks (h ▸ hk2)
      rw [List.filter_filter]
      refine (List.filter_congr ?_).symm
      intro a _
      by_cases hfa : f a = k2
      · simp [hfa, hk2k]
      · simp [hfa]
    have h2 : (ks.flatMap fun k2 => l.filter fun a => f a = k2) =
        ks.flatMap fun k2 => (l.filter fun a => ¬ f a = k).filter fun a => f a = k2 := by
      apply List.flatMap_congr
      intro k2 hk2
      exact hstep k2 hk2
    rw [h2]
    have hcov2 : ∀ a ∈ l.filter fun a => ¬ f a = k, f a ∈ ks := by
      intro a ha
      rcases List.mem_filter.1 ha with ⟨hal, hak⟩
      have hak2 : ¬ f a = k := by simpa using hak
      rcases List.mem_cons.1 (hcov a hal) with h | h
      · exact absurd h hak2
      · exact h
    have hperm := ih (l.filter fun a => ¬ f a = k) (List.nodup_cons.1 hnd).2 hcov2
    calc (l.filter fun a => f a = k) ++
          (ks.flatMap fun k2 => (l.filter fun a => ¬ f a = k).filter fun a => f a = k2)
        ~ (l.filter fun a => f a = k) ++ (l.filter fun a => ¬ f a = k) :=
          hperm.append_left _
      _ ~ l := by
          simpa using List.filter_append_perm (fun a => decide (f a = k)) l

theorem groupItems_flatMap_perm (rs : List ImageRecord) :
    ((folderKeys rs).flatMap fun k => groupItems rs k) ~ rs := by
  refine flatMap_filter_perm (fun r => dirname r.path) (folderKeys rs)
    rs (nodup_dedupKeepFirst _) ?_
  intro a ha
  exact mem_dedupKeepFirst.2 (List.mem_map_of_mem _ ha)

theorem sortByName_perm (rs : List ImageRecord) : sortByName rs ~ rs :=
  List.perm_insertionSort _ _

theorem sortPhase_perm (shR : List ImageRecord → List ImageRecord)
    (shF : List String → List String) (fMtime : String → Int)
    (mode : String) (rs : List ImageRecord)
    (hR : ∀ l, shR l ~ l) (hF : ∀ l, shF l ~ l) :
    sortPhase shR shF fMtime mode rs ~ rs.map (fun r => r.path) := by
  have hgroups : ∀ ks : List String, ks ~ folderKeys rs →
      (ks.flatMap fun k => (sortByName (groupItems rs k)).map fun r => r.path)
        ~ rs.map (fun r => r.path) := by
    intro ks hks
    calc (ks.flatMap fun k => (sortByName (groupItems rs k)).map fun r => r.path)
        ~ (folderKeys rs).flatMap (fun k => (sortByName (groupItems rs k)).map fun r => r.path) :=
          hks.flatMap_right _
      _ ~ (folderKeys rs).flatMap (fun k => (groupItems rs k).map fun r => r.path) :=
          List.Perm.flatMap_left _ (fun k _ => ((sortByName_perm _).map _))
      _ = ((folderKeys rs).flatMap fun k => groupItems rs k).map fun r => r.path := by
          rw [List.map_flatMap]
      _ ~ rs.map (fun r => r.path) := (groupItems_flatMap_perm rs).map _
  rw [sortPhase]
  by_cases h1 : mode = "shuffle"
  · simpa [h1] using (hR rs).map _
  by_cases h2 : mode = "name"
  · simpa [h1, h2] using (sortByName_perm rs).map _
  by_cases h3 : mode = "date"
  · simpa [h1, h2, h3] using (List.perm_insertionSort dateLe rs).map _
  by_cases h4 : mode = "subfolder_random"
  · simpa [h1, h2, h3, h4] using hgroups _ (hF (folderKeys rs))
  by_cases h5 : mode = "subfolder_date"
  · simpa [h1, h2, h3, h4, h5] using hgroups _ (List.perm_insertionSort _ _)
  · simpa [h1, h2, h3, h4, h5] using (sortByName_perm rs).map _

theorem applyDirection_perm (d : String) (l : List String) : applyDirection d l ~ l := by
  rw [applyDirection]
  by_cases h : d = "reverse"
  · rw [if_pos h]
    exact l.reverse_perm
  · simp [h]

theorem rotateAtAnchor_perm (allow : Bool) (root : List String) (cur : Option String)
    (l : List String) : rotateAtAnchor allow root cur l ~ l := by
  cases cur with
  | none => exact List.Perm.refl _
  | some cp0 =>
    rw [rotateAtAnchor]
    by_cases h0 : cp0 = ""
    · simp [h0]
    rw [if_neg h0]
    by_cases hc : normalize_rel_path cp0 ≠ "" ∧
        (allow || is_path_in_root_dir root (normalize_rel_path cp0)) = true ∧
        normalize_rel_path cp0 ∈ l
    · rw [if_pos hc]
      calc l.drop (l.indexOf (normalize_rel_path cp0)) ++
            l.take (l.indexOf (normalize_rel_path cp0))
          ~ l.take (l.indexOf (normalize_rel_path cp0)) ++
            l.drop (l.indexOf (normalize_rel_path cp0)) := List.perm_append_comm
        _ = l := List.take_append_drop _ _
    · rw [if_neg hc]

theorem buildPlaylist_perm (root : List String) (allow : Bool) (db : List ImageRecord)
    (shR : List ImageRecord → List ImageRecord) (shF : List String → List String)
    (fMtime : String → Int) (req : PlaylistRequest)
    (hR : ∀ l, shR l ~ l) (hF : ∀ l, shF l ~ l) (hne : req.paths ≠ []) :
    buildPlaylist root allow db shR shF fMtime req ~
      (dedupByPath (query_images_from_db db (sanitize_playlist_paths allow root req.paths)
        req.orientation)).map (fun r => r.path) := by
  rw [buildPlaylist, if_neg hne]
  exact ((rotateAtAnchor_perm _ _ _ _).trans (applyDirection_perm _ _)).trans
    (sortPhase_perm _ _ _ _ _ hR hF)

/-! ## Claim C1 -/

/-- C1: every playlist returned by the playlist build operation contains no
duplicate paths, and every path in it exists in the Index at build time
(the post-backfill `db` the final query runs against), matches at least one
requested (sanitized) prefix condition, and satisfies the requested
orientation filter.  The two shuffles are arbitrary permutation oracles. -/
theorem playlist_build_nodup_and_from_index
    (root : List String) (allow : Bool) (db : List ImageRecord)
    (shR : List ImageRecord → List ImageRecord) (shF : List String → List String)
    (fMtime : String → Int) (req : PlaylistRequest)
    (hR : ∀ l, shR l ~ l) (hF : ∀ l, shF l ~ l) :
    (buildPlaylist root allow db shR shF fMtime req).Nodup ∧
    ∀ p ∈ buildPlaylist root allow db shR shF fMtime req,
      ∃ r ∈ db, r.path = p ∧
        (sanitize_playlist_paths allow root req.paths).any (fun q => pathCondition q p) = true ∧
        orientationOk req.orientation r.is_landscape = true := by
  by_cases hne : req.paths = []
  · rw [buildPlaylist, if_pos hne]
    exact ⟨List.nodup_nil, fun p hp => absurd hp (List.not_mem_nil p)⟩
  · have hperm := buildPlaylist_perm root allow db shR shF fMtime req hR hF hne
    constructor
    · exact hperm.symm.nodup (dedupByPath_nodup _)
    · intro p hp
      have hpL := hperm.mem_iff.1 hp
      rcases List.mem_map.1 hpL with ⟨r, hr, hrp⟩
      have hrq := dedupByPath_subset hr
      rcases List.mem_filter.1 hrq with ⟨hrdb, hcond⟩
      rw [Bool.and_eq_true] at hcond
      exact ⟨r, hrdb, hrp, hrp ▸ hcond.1, hcond.2⟩

/-- Witness for C1 at a concrete database, request with an overlapping
duplicate prefix, and the identity shuffles. -/
theorem playlist_build_nodup_and_from_index_witness :
    (buildPlaylist root0 true [⟨"a/2.jpg", 5, true⟩, ⟨"a/sub/3.jpg", 7, false⟩] id id
        (fun _ => 0) ⟨["a", "a", "."], "name", "Both", "forward", none⟩).Nodup ∧
    ∀ p ∈ buildPlaylist root0 true [⟨"a/2.jpg", 5, true⟩, ⟨"a/sub/3.jpg", 7, false⟩] id id
        (fun _ => 0) ⟨["a", "a", "."], "name", "Both", "forward", none⟩,
      ∃ r ∈ [ImageRecord.mk "a/2.jpg" 5 true, ImageRecord.mk "a/sub/3.jpg" 7 false],
        r.path = p ∧
        (sanitize_playlist_paths true root0 ["a", "a", "."]).any
          (fun q => pathCondition q p) = true ∧
        orientationOk "Both" r.is_landscape = true :=
  playlist_build_nodup_and_from_index root0 true _ id id _ _
    (fun l => List.Perm.refl l) (fun l => List.Perm.refl l)

/-! ## Claim C2: characterizing the LIKE query -/

theorem char_toNat_ofNat_valid {m : Nat} (h : m < 55296) : (Char.ofNat m).toNat = m := by
  have hv : m.isValidChar := Or.inl h
  rw [Char.ofNat, dif_pos hv]
  rfl

theorem toLower_toNat_of_upper {c : Char} (h1 : 65 ≤ c.toNat) (h2 : c.toNat ≤ 90) :
    c.toLower.toNat = c.toNat + 32 := by
  rw [Char.toLower, if_pos ⟨h1, h2⟩]
  exact char_toNat_ofNat_valid (by omega)

/-- ASCII lowering fixes every character below 'A'; in particular folding a
character to '.' or '/' is possible only when it already is that character. -/
theorem toLower_eq_low {c d : Char} (hd : d.toNat < 65) : c.toLower = d ↔ c = d := by
  by_cases h : c.toNat ≥ 65 ∧ c.toNat ≤ 90
  · constructor
    · intro he
      have h1 := toLower_toNat_of_upper h.1 h.2
      rw [he] at h1
      omega
    · intro he
      have : c.toNat = d.toNat := by rw [he]
      omega
  · rw [Char.toLower, if_neg h]

theorem nil_mem_charTails (s : List Char) : [] ∈ charTails s := by
  induction s with
  | nil => simp [charTails]
  | cons c s ih => simp [charTails, ih]

theorem likeMatch_percent (s : List Char) : likeMatch ['%'] s = true := by
  simp only [likeMatch, if_pos rfl]
  refine List.any_eq_true.2 ⟨[], nil_mem_charTails s, ?_⟩
  rfl

theorem likeMatch_lit_percent (lit : List Char) (hw : ∀ c ∈ lit, c ≠ '%' ∧ c ≠ '_') :
    ∀ s : List Char,
      (likeMatch (lit ++ ['%']) s = true ↔ lit.map Char.toLower <+: s.map Char.toLower) := by
  induction lit with
  | nil =>
    intro s
    simp [likeMatch_percent]
  | cons p lit ih =>
    intro s
    have hp := hw p (List.mem_cons_self _ _)
    have hw2 : ∀ c ∈ lit, c ≠ '%' ∧ c ≠ '_' := fun c hc => hw c (List.mem_cons_of_mem _ hc)
    cases s with
    | nil =>
      rw [List.cons_append, likeMatch, if_neg hp.1, if_neg hp.2]
      simp
    | cons c s =>
      rw [List.cons_append, likeMatch, if_neg hp.1, if_neg hp.2]
      simp only [List.map_cons, List.cons_prefix_cons, Bool.and_eq_true, decide_eq_true_eq]
      rw [ih hw2 s]

/-- Folding with `Char.toLower` does not create or destroy a leading "../". -/
theorem dotdotslash_prefix_fold (l : List Char) :
    (['.', '.', '/'] <+: l.map Char.toLower) ↔ (['.', '.', '/'] <+: l) := by
  match l with
  | [] => simp
  | [a] =>
    constructor
    · intro h
      have := h.length_le
      simp at this
    · intro h
      have := h.length_le
      simp at this
  | [a, b] =>
    constructor
    · intro h
      have := h.length_le
      simp at this
    · intro h
      have := h.length_le
      simp at this
  | a :: b :: e :: rest =>
    simp only [List.map_cons, List.cons_prefix_cons]
    constructor
    · rintro ⟨ha, hb, he, -⟩
      exact ⟨((toLower_eq_low (by decide)).1 ha.symm).symm,
        ((toLower_eq_low (by decide)).1 hb.symm).symm,
        ((toLower_eq_low (by decide)).1 he.symm).symm, List.nil_prefix⟩
    · rintro ⟨ha, hb, he, -⟩
      exact ⟨((toLower_eq_low (by decide)).2 ha.symm).symm,
        ((toLower_eq_low (by decide)).2 hb.symm).symm,
        ((toLower_eq_low (by decide)).2 he.symm).symm, List.nil_prefix⟩

/-- The non-root prefix condition `path LIKE p || '/%'` is, for a
wildcard-free prefix, exactly a strict case-insensitive prefix test at any
nesting depth. -/
theorem pathCondition_nonroot_iff (p path : String) (hw : noWildcards p = true)
    (hp : (p = "" || p = ".") = false) :
    pathCondition p path = true ↔
      (p.data.map Char.toLower ++ ['/']) <+: path.data.map Char.toLower := by
  rw [pathCondition, if_neg (by simp [hp])]
  have hdata : (p ++ "/%").data = (p.data ++ ['/']) ++ ['%'] := by
    simp [String.data_append]
  have hw2 : ∀ c ∈ p.data ++ ['/'], c ≠ '%' ∧ c ≠ '_' := by
    intro c hc
    rcases List.mem_append.1 hc with h | h
    · have := List.all_eq_true.1 hw c h
      simp only [Bool.and_eq_true, decide_eq_true_eq] at this
      exact this
    · rw [List.mem_singleton] at h
      subst h
      exact ⟨by decide, by decide⟩
  rw [likeMatchStr, hdata, likeMatch_lit_percent _ hw2 path.data]
  have : (p.data ++ ['/']).map Char.toLower = p.data.map Char.toLower ++ ['/'] := by
    simp
  rw [this]

/-- The root condition `path NOT LIKE '../%'` holds exactly when the raw
path does not start with "../". -/
theorem pathCondition_root_iff (p path : String) (hp : (p = "" || p = ".") = true) :
    pathCondition p path = true ↔ ¬ ['.', '.', '/'] <+: path.data := by
  rw [pathCondition, if_pos hp]
  have h1 : likeMatchStr "../%" path = true ↔ ['.', '.', '/'] <+: path.data := by
    have hw : ∀ c ∈ ['.', '.', '/'], c ≠ '%' ∧ c ≠ '_' := by decide
    have hlit : ("../%".data : List Char) = ['.', '.', '/'] ++ ['%'] := rfl
    have hfold : (['.', '.', '/'] : List Char).map Char.toLower = ['.', '.', '/'] := by decide
    rw [likeMatchStr, hlit, likeMatch_lit_percent _ hw path.data, hfold]
    exact dotdotslash_prefix_fold path.data
  rw [Bool.not_eq_true', ← Bool.not_eq_true]
  exact not_congr h1

theorem pathCondition_iff_spec (p path : String) (hw : noWildcards p = true) :
    pathCondition p path = true ↔ specSelectsNested p path = true := by
  by_cases hp : (p = "" || p = ".") = true
  · rw [pathCondition_root_iff p path hp, specSelectsNested, if_pos hp,
      Bool.not_eq_true', Bool.eq_false_iff, Ne, List.isPrefixOf_iff_prefix]
  · have hp2 : (p = "" || p = ".") = false := Bool.not_eq_true _ ▸ hp
    rw [pathCondition_nonroot_iff p path hw hp2, specSelectsNested, if_neg (by simp [hp2]),
      List.isPrefixOf_iff_prefix]

/-- Counterexample to C2 as stated: for the Index `[{path := "a"},
{path := "a/b/c"}]` and the single prefix "a", the claimed selection rule
(path equals the prefix or is nested exactly one level under it) keeps "a"
and drops "a/b/c", while the code's query does exactly the opposite: the SQL
`path LIKE 'a' || '/%'` rejects the path equal to the prefix and accepts
nesting of any depth. -/
theorem query_one_level_claim_false :
    query_images_from_db
        [ImageRecord.mk "a" 0 true, ImageRecord.mk "a/b/c" 0 true] ["a"] "Both"
      = [ImageRecord.mk "a/b/c" 0 true] ∧
    specSelectsOneLevel "a" "a" = true ∧
    specSelectsOneLevel "a" "a/b/c" = false := by
  refine ⟨?_, by decide, by decide⟩
  decide

/-- C2 (amended): for wildcard-free prefixes, the Index query selects exactly
the records passing the orientation filter whose path is, for some requested
prefix, STRICTLY nested (at any depth, ASCII-case-insensitively) below that
prefix — a path equal to the prefix is not selected and nesting is not
limited to one level — where a root prefix ('.' or empty) matches every
record whose path does not start with '../'. -/
theorem query_selects_strictly_nested (db : List ImageRecord) (ps : List String)
    (o : String) (r : ImageRecord) (hw : ∀ p ∈ ps, noWildcards p = true) :
    r ∈ query_images_from_db db ps o ↔
      r ∈ db ∧ orientationOk o r.is_landscape = true ∧
        ∃ p ∈ ps, specSelectsNested p r.path = true := by
  rw [query_images_from_db, List.mem_filter, Bool.and_eq_true, List.any_eq_true]
  constructor
  · rintro ⟨hdb, ⟨q, hq, hcond⟩, ho⟩
    exact ⟨hdb, ho, q, hq, (pathCondition_iff_spec q r.path (hw q hq)).1 hcond⟩
  · rintro ⟨hdb, ho, q, hq, hsel⟩
    exact ⟨hdb, ⟨q, hq, (pathCondition_iff_spec q r.path (hw q hq)).2 hsel⟩, ho⟩

/-- Witness for the amended C2 at a concrete database and prefix list. -/
theorem query_selects_strictly_nested_witness :
    ImageRecord.mk "a/B/c.jpg" 0 true ∈
      query_images_from_db
        [ImageRecord.mk "a" 0 true, ImageRecord.mk "a/B/c.jpg" 0 true,
         ImageRecord.mk "../out.jpg" 0 true] ["A", "."] "Both" ↔
      ImageRecord.mk "a/B/c.jpg" 0 true ∈
        [ImageRecord.mk "a" 0 true, ImageRecord.mk "a/B/c.jpg" 0 true,
         ImageRecord.mk "../out.jpg" 0 true] ∧
      orientationOk "Both" true = true ∧
      ∃ p ∈ ["A", "."], specSelectsNested p "a/B/c.jpg" = true :=
  query_selects_strictly_nested _ _ _ _ (by decide)

/-! ## Claim C3 -/

/-- C3: the parent-directory-access flag is re-read on every request (the
outcome of a serve request appended to any event history is computed from the
flag value current after that history, never from a cached earlier value);
with the flag disabled, a playlist prefix or browse path whose normalisation
resolves outside the managed root is coerced to the root "." (resp. the root
directory itself), while serving a file whose path resolves outside the root
returns 403 for every filesystem whatsoever — i.e. before any file is read. -/
theorem parent_flag_hot_reload_and_fail_closed :
    (∀ (root : List String) (fsIsFile : List String → Bool) (init : Bool)
        (evs : List ReqEvent) (p : String),
      traceOutcomes root fsIsFile init (evs ++ [ReqEvent.serveReq p]) =
        traceOutcomes root fsIsFile init evs ++
          [serve_file_core (flagAfter init evs) root fsIsFile p]) ∧
    (∀ (root : List String) (p : String),
      is_path_in_root_dir root (normalize_rel_path p) = false →
      sanitizeOne false root p = ".") ∧
    (∀ (root : List String) (p : String),
      is_path_in_root_dir root (normalize_rel_path p) = false →
      browse_target false root p = (root, "")) ∧
    (∀ (root : List String) (fsIsFile : List String → Bool) (p : String),
      is_path_in_root_dir root (resolve_relative_file_path p) = false →
      serve_file_core false root fsIsFile p = ServeOutcome.forbidden) := by
  refine ⟨?_, ?_, ?_, ?_⟩
  · intro root fsIsFile init evs p
    induction evs generalizing init with
    | nil => rfl
    | cons e evs ih =>
      cases e with
      | setFlag b =>
        rw [List.cons_append]
        rw [traceOutcomes, traceOutcomes, flagAfter, ih]
      | toggleFlag =>
        rw [List.cons_append]
        rw [traceOutcomes, traceOutcomes, flagAfter, ih]
      | serveReq q =>
        rw [List.cons_append]
        rw [traceOutcomes, traceOutcomes, flagAfter, ih, List.cons_append]
  · intro root p hout
    have hpe : ¬(p = "" || p = ".") = true := by
      intro hp
      simp only [Bool.or_eq_true, decide_eq_true_eq] at hp
      have hnp : normalize_rel_path p = "" ∨ normalize_rel_path p = "." := by
        rcases hp with h | h <;> subst h
        · exact Or.inl rfl
        · exact Or.inr rfl
      rw [is_path_in_root_dir, if_pos (by rcases hnp with h | h <;> simp [h])] at hout
      cases hout
    rw [sanitizeOne, if_neg hpe]
    simp [hout]
  · intro root p hout
    have hpe : ¬(p = "" || p = ".") = true := by
      intro hp
      simp only [Bool.or_eq_true, decide_eq_true_eq] at hp
      have hnp : normalize_rel_path p = "" ∨ normalize_rel_path p = "." := by
        rcases hp with h | h <;> subst h
        · exact Or.inl rfl
        · exact Or.inr rfl
      rw [is_path_in_root_dir, if_pos (by rcases hnp with h | h <;> simp [h])] at hout
      cases hout
    rw [browse_target, if_neg hpe]
    simp [hout]
  · intro root fsIsFile p hout
    rw [serve_file_core]
    simp [hout]

/-- Witness for C3: against the concrete root, a "../" path is coerced by the
playlist sanitiser and the browse endpoint, and the file server refuses it
with 403 even on a filesystem where every file exists. -/
theorem parent_flag_hot_reload_and_fail_closed_witness :
    sanitizeOne false root0 "../escape.jpg" = "." ∧
    browse_target false root0 "../escape" = (root0, "") ∧
    serve_file_core false root0 (fun _ => true) "../escape.jpg" = ServeOutcome.forbidden ∧
    traceOutcomes root0 (fun _ => true) true
        ([ReqEvent.setFlag false] ++ [ReqEvent.serveReq "../escape.jpg"]) =
      traceOutcomes root0 (fun _ => true) true [ReqEvent.setFlag false] ++
        [serve_file_core (flagAfter true [ReqEvent.setFlag false]) root0
          (fun _ => true) "../escape.jpg"] :=
  ⟨parent_flag_hot_reload_and_fail_closed.2.1 root0 _ (by decide),
   parent_flag_hot_reload_and_fail_closed.2.2.1 root0 _ (by decide),
   parent_flag_hot_reload_and_fail_closed.2.2.2 root0 _ _ (by decide),
   parent_flag_hot_reload_and_fail_closed.1 root0 _ true _ _⟩

/-! ## Claim C4 -/

/-- C4: one root-wide reconcile pass deletes exactly the Index paths that
resolve inside the managed root and are absent from the walk, and every
record whose path resolves outside the root is still present, unchanged,
afterwards.  `hfs` states that walk results are in-root relative paths (they
come from `os.path.relpath` under `ROOT_DIR`), `hup` that upserts are
extracted from walk files. -/
theorem reconcile_deletes_only_inroot_stale
    (root : List String) (db : List ImageRecord) (fsPaths : List String)
    (upserts : List ImageRecord)
    (hfs : ∀ q ∈ fsPaths, is_db_path_under_root root q = true)
    (hup : ∀ u ∈ upserts, u.path ∈ fsPaths) :
    (∀ r ∈ db, is_db_path_under_root root r.path = false →
        r ∈ applyReconcile root db fsPaths upserts) ∧
    (∀ p ∈ db.map (fun r => r.path),
        (p ∈ (applyReconcile root db fsPaths upserts).map (fun r => r.path) ↔
          ¬(is_db_path_under_root root p = true ∧ p ∉ fsPaths))) := by
  have hdel : ∀ p, p ∈ scanDeletes root (db.map (fun r => r.path)) fsPaths ↔
      p ∈ db.map (fun r => r.path) ∧ is_db_path_under_root root p = true ∧ p ∉ fsPaths := by
    intro p
    rw [scanDeletes, List.mem_filter, Bool.and_eq_true]
    constructor
    · rintro ⟨h1, h2, h3⟩
      refine ⟨h1, h2, ?_⟩
      simpa using h3
    · rintro ⟨h1, h2, h3⟩
      refine ⟨h1, h2, ?_⟩
      simpa using h3
  constructor
  · intro r hr hout
    rw [applyReconcile]
    refine mem_foldl_updateAssoc_of_ne ?_ ?_
    · refine List.mem_filter.2 ⟨hr, ?_⟩
      simp only [Bool.not_eq_true']
      rw [Bool.eq_false_iff]
      intro hcon
      rcases (hdel r.path).1 (by simpa using hcon) with ⟨-, h2, -⟩
      rw [hout] at h2
      cases h2
    · intro hmem
      rcases List.mem_map.1 hmem with ⟨u, hu, hupath⟩
      have := hfs u.path (hup u hu)
      rw [hupath, hout] at this
      cases this
  · intro p hp
    constructor
    · intro hmem hcon
      have hpdel : p ∈ scanDeletes root (db.map (fun r => r.path)) fsPaths :=
        (hdel p).2 ⟨hp, hcon.1, hcon.2⟩
      rw [applyReconcile] at hmem
      rcases paths_foldl_updateAssoc.1 hmem with h1 | h1
      · rcases List.mem_map.1 h1 with ⟨r, hr, hrp⟩
        rcases List.mem_filter.1 hr with ⟨-, hkeep⟩
        rw [hrp] at hkeep
        simp only [Bool.not_eq_true', Bool.eq_false_iff] at hkeep
        exact hkeep (by simpa using hpdel)
      · rcases List.mem_map.1 h1 with ⟨u, hu, hupath⟩
        exact hcon.2 (hupath ▸ hup u hu)
    · intro hcon
      rcases List.mem_map.1 hp with ⟨r, hr, hrp⟩
      rw [applyReconcile]
      refine paths_foldl_updateAssoc.2 (Or.inl ?_)
      refine List.mem_map.2 ⟨r, List.mem_filter.2 ⟨hr, ?_⟩, hrp⟩
      simp only [Bool.not_eq_true', Bool.eq_false_iff]
      intro hin
      rcases (hdel r.path).1 (by simpa using hin) with ⟨-, h2, h3⟩
      exact hcon (hrp ▸ ⟨h2, h3⟩)

/-- Witness for C4: a stale in-root record is removed, a fresh in-root
record survives, and an out-of-root record is untouched. -/
theorem reconcile_deletes_only_inroot_stale_witness :
    (∀ r ∈ [ImageRecord.mk "gone.jpg" 1 true, ImageRecord.mk "kept.jpg" 2 true,
              ImageRecord.mk "../ext/e.jpg" 3 false],
        is_db_path_under_root root0 r.path = false →
        r ∈ applyReconcile root0
              [ImageRecord.mk "gone.jpg" 1 true, ImageRecord.mk "kept.jpg" 2 true,
               ImageRecord.mk "../ext/e.jpg" 3 false]
              ["kept.jpg"] [ImageRecord.mk "kept.jpg" 9 true]) ∧
    (∀ p ∈ [ImageRecord.mk "gone.jpg" 1 true, ImageRecord.mk "kept.jpg" 2 true,
              ImageRecord.mk "../ext/e.jpg" 3 false].map (fun r => r.path),
        (p ∈ (applyReconcile root0
              [ImageRecord.mk "gone.jpg" 1 true, ImageRecord.mk "kept.jpg" 2 true,
               ImageRecord.mk "../ext/e.jpg" 3 false]
              ["kept.jpg"] [ImageRecord.mk "kept.jpg" 9 true]).map (fun r => r.path) ↔
          ¬(is_db_path_under_root root0 p = true ∧ p ∉ ["kept.jpg"]))) :=
  reconcile_deletes_only_inroot_stale root0 _ _ _ (by decide) (by decide)

/-! ## Claim C5 -/

/-- C5: `restore_playlist` keeps exactly the candidate paths that still
resolve, against the managed root, to an existing file; it fails if and only
if no candidate survives (leaving the session state untouched on failure);
on success it installs the survivors in memory and durably and reports
`valid_count` = number of survivors and `original_count` = number of
candidates.  The final conjunct is the spec's concrete scenario: one
existing and one deleted candidate give `valid_count = 1`. -/
theorem restore_playlist_validation
    (fsIsFile : List String → Bool) (root : List String) (st : SessionState)
    (clientId : String) (playlist : List String) (cursor : Int) :
    ((restore_playlist fsIsFile root st clientId playlist cursor).2 = none ↔
      playlist.filter (fun p => fsIsFile (absJoin root p)) = []) ∧
    ((restore_playlist fsIsFile root st clientId playlist cursor).2 = none →
      (restore_playlist fsIsFile root st clientId playlist cursor).1 = st) ∧
    (∀ out, (restore_playlist fsIsFile root st clientId playlist cursor).2 = some out →
      out.playlist = playlist.filter (fun p => fsIsFile (absJoin root p)) ∧
      out.valid_count = (playlist.filter (fun p => fsIsFile (absJoin root p))).length ∧
      out.original_count = playlist.length ∧
      (restore_playlist fsIsFile root st clientId playlist cursor).1.sessions =
        putEntry st.sessions clientId (playlist.filter (fun p => fsIsFile (absJoin root p))) ∧
      (restore_playlist fsIsFile root st clientId playlist cursor).1.durable =
        putEntry st.durable clientId (playlist.filter (fun p => fsIsFile (absJoin root p)))) ∧
    ((restore_playlist (fun q => q = root0 ++ ["keep.jpg"]) root0 st clientId
        ["keep.jpg", "deleted.jpg"] cursor).2.map (fun o => o.valid_count) = some 1) := by
  refine ⟨?_, ?_, ?_, ?_⟩
  · rw [restore_playlist]
    by_cases h0 : playlist = []
    · rw [if_pos h0]
      subst h0
      simp
    · rw [if_neg h0]
      by_cases hv : playlist.filter (fun p => fsIsFile (absJoin root p)) = []
      · rw [if_pos hv]
        simp [hv]
      · rw [if_neg hv]
        simp [hv]
  · rw [restore_playlist]
    by_cases h0 : playlist = []
    · rw [if_pos h0]
      intro _
      rfl
    · rw [if_neg h0]
      by_cases hv : playlist.filter (fun p => fsIsFile (absJoin root p)) = []
      · rw [if_pos hv]
        intro _
        rfl
      · rw [if_neg hv]
        intro h
        cases h
  · intro out
    rw [restore_playlist]
    by_cases h0 : playlist = []
    · rw [if_pos h0]
      intro h
      cases h
    · rw [if_neg h0]
      by_cases hv : playlist.filter (fun p => fsIsFile (absJoin root p)) = []
      · rw [if_pos hv]
        intro h
        cases h
      · rw [if_neg hv]
        intro h
        cases h
        exact ⟨rfl, rfl, rfl, rfl, rfl⟩
  · rfl

/-- Witness for C5: on the concrete filesystem holding only `keep.jpg`,
restoring `["keep.jpg", "deleted.jpg"]` succeeds with the survivor list
`["keep.jpg"]`, installed in memory and durably, and the failure/identity
conjuncts hold at this input too. -/
theorem restore_playlist_validation_witness :
    ((restore_playlist (fun q => q = root0 ++ ["keep.jpg"]) root0
        (SessionState.mk [] []) "client" ["keep.jpg", "deleted.jpg"] 0).2 = none ↔
      (["keep.jpg", "deleted.jpg"].filter
        (fun p => (fun q => q = root0 ++ ["keep.jpg"]) (absJoin root0 p))) = []) ∧
    (∀ out, (restore_playlist (fun q => q = root0 ++ ["keep.jpg"]) root0
        (SessionState.mk [] []) "client" ["keep.jpg", "deleted.jpg"] 0).2 = some out →
      out.playlist = (["keep.jpg", "deleted.jpg"].filter
        (fun p => (fun q => q = root0 ++ ["keep.jpg"]) (absJoin root0 p))) ∧
      out.valid_count = (["keep.jpg", "deleted.jpg"].filter
        (fun p => (fun q => q = root0 ++ ["keep.jpg"]) (absJoin root0 p))).length ∧
      out.original_count = (["keep.jpg", "deleted.jpg"] : List String).length ∧
      (restore_playlist (fun q => q = root0 ++ ["keep.jpg"]) root0
        (SessionState.mk [] []) "client" ["keep.jpg", "deleted.jpg"] 0).1.sessions =
        putEntry [] "client" (["keep.jpg", "deleted.jpg"].filter
          (fun p => (fun q => q = root0 ++ ["keep.jpg"]) (absJoin root0 p))) ∧
      (restore_playlist (fun q => q = root0 ++ ["keep.jpg"]) root0
        (SessionState.mk [] []) "client" ["keep.jpg", "deleted.jpg"] 0).1.durable =
        putEntry [] "client" (["keep.jpg", "deleted.jpg"].filter
          (fun p => (fun q => q = root0 ++ ["keep.jpg"]) (absJoin root0 p)))) :=
  ⟨(restore_playlist_validation (fun q => q = root0 ++ ["keep.jpg"]) root0
      (SessionState.mk [] []) "client" ["keep.jpg", "deleted.jpg"] 0).1,
   (restore_playlist_validation (fun q => q = root0 ++ ["keep.jpg"]) root0
      (SessionState.mk [] []) "client" ["keep.jpg", "deleted.jpg"] 0).2.2.1⟩

/-! ## Claim C10 -/

/-- C10: on every successful restore, the preload center handed to the
background task is the caller's cursor clamped into
`[0, valid_count - 1]`; a negative or too-large cursor can never produce an
out-of-bounds center. -/
theorem restore_preload_center_clamped
    (fsIsFile : List String → Bool) (root : List String) (st : SessionState)
    (clientId : String) (playlist : List String) (cursor : Int) (out : RestoreResult)
    (h : (restore_playlist fsIsFile root st clientId playlist cursor).2 = some out) :
    0 ≤ out.preload_center ∧ out.preload_center < (out.valid_count : Int) ∧
    out.preload_center = max 0 (min cursor ((out.valid_count : Int) - 1)) := by
  rw [restore_playlist] at h
  by_cases h0 : playlist = []
  · rw [if_pos h0] at h
    cases h
  · rw [if_neg h0] at h
    by_cases hv : playlist.filter (fun p => fsIsFile (absJoin root p)) = []
    · rw [if_pos hv] at h
      cases h
    · rw [if_neg hv] at h
      cases h
      dsimp only
      have hlen : 1 ≤ (playlist.filter (fun p => fsIsFile (absJoin root p))).length :=
        List.length_pos.2 hv
      refine ⟨le_max_left _ _, ?_, rfl⟩
      have hmin : min cursor (((playlist.filter
          (fun p => fsIsFile (absJoin root p))).length : Int) - 1) ≤
          ((playlist.filter (fun p => fsIsFile (absJoin root p))).length : Int) - 1 :=
        min_le_right _ _
      have : (0 : Int) < ((playlist.filter (fun p => fsIsFile (absJoin root p))).length : Int) := by
        exact_mod_cast hlen
      rw [max_lt_iff]
      exact ⟨this, by omega⟩

/-- Witness for C10: restoring with cursor -7 on a two-file playlist yields
preload center 0, inside the bounds. -/
theorem restore_preload_center_clamped_witness :
    0 ≤ (RestoreResult.mk 2 2 ["a.jpg", "b.jpg"] 0).preload_center ∧
    (RestoreResult.mk 2 2 ["a.jpg", "b.jpg"] 0).preload_center <
      ((RestoreResult.mk 2 2 ["a.jpg", "b.jpg"] 0).valid_count : Int) ∧
    (RestoreResult.mk 2 2 ["a.jpg", "b.jpg"] 0).preload_center =
      max 0 (min (-7) (((RestoreResult.mk 2 2 ["a.jpg", "b.jpg"] 0).valid_count : Int) - 1)) :=
  restore_preload_center_clamped (fun _ => true) root0 (SessionState.mk [] [])
    "client" ["a.jpg", "b.jpg"] (-7) (RestoreResult.mk 2 2 ["a.jpg", "b.jpg"] 0) rfl

/-! ## Claim C6 -/

/-- Counterexample to C6 as stated: with parent access disabled, the record
"a/../../x.jpg" (selected by the Index query for prefix "a" yet resolving
outside the root) ends up in the final sequence and equals the given anchor
— the claim then demands a rotation bringing it to index 0 — but the code
also requires `allow_parent_dir_access() or is_path_in_root_dir(anchor)`,
which fails, so the sequence is returned unrotated. -/
theorem rotate_without_sandbox_check_counterexample :
    buildPlaylist root0 false
        [ImageRecord.mk "a/1.jpg" 0 true, ImageRecord.mk "a/../../x.jpg" 0 true] id id
        (fun _ => 0) (PlaylistRequest.mk ["a"] "name" "Both" "forward" (some "a/../../x.jpg"))
      = ["a/1.jpg", "a/../../x.jpg"] ∧
    normalize_rel_path "a/../../x.jpg" = "a/../../x.jpg" ∧
    "a/../../x.jpg" ∈ (["a/1.jpg", "a/../../x.jpg"] : List String) ∧
    (["a/1.jpg", "a/../../x.jpg"] : List String).head? ≠ some "a/../../x.jpg" := by
  refine ⟨by decide, by decide, by decide, by decide⟩

/-- C6 (amended): in every playlist build the direction reversal is applied
after sorting and the anchor rotation after that (`buildPlaylist` is the
rotation applied to `playlistMid`, the sorted-then-reversed sequence);
whenever the normalised anchor is non-empty, permitted by the sandbox flag
(parent access allowed or the anchor inside the root), and present in
`playlistMid`, the result is that sequence rotated so the anchor is at
index 0 with the elements before it moved to the tail (`drop ++ take`,
relative order preserved); in particular [a,b,c,d] with anchor c yields
[c,d,a,b], and reversed [d,c,b,a] with anchor c yields [c,b,a,d]. -/
theorem reverse_after_sort_then_rotate
    (root : List String) (allow : Bool) (db : List ImageRecord)
    (shR : List ImageRecord → List ImageRecord) (shF : List String → List String)
    (fMtime : String → Int) (req : PlaylistRequest) (cp0 : String)
    (hne : req.paths ≠ []) (hcur : req.current_path = some cp0) (h0 : cp0 ≠ "")
    (hcp : normalize_rel_path cp0 ≠ "")
    (hok : (allow || is_path_in_root_dir root (normalize_rel_path cp0)) = true)
    (hmem : normalize_rel_path cp0 ∈ playlistMid root allow db shR shF fMtime req) :
    (buildPlaylist root allow db shR shF fMtime req =
      rotateAtAnchor allow root req.current_path
        (playlistMid root allow db shR shF fMtime req)) ∧
    (buildPlaylist root allow db shR shF fMtime req =
      (playlistMid root allow db shR shF fMtime req).drop
          ((playlistMid root allow db shR shF fMtime req).indexOf
            (normalize_rel_path cp0)) ++
        (playlistMid root allow db shR shF fMtime req).take
          ((playlistMid root allow db shR shF fMtime req).indexOf
            (normalize_rel_path cp0))) ∧
    (buildPlaylist root allow db shR shF fMtime req).head? =
      some (normalize_rel_path cp0) ∧
    rotateAtAnchor true root0 (some "c") (applyDirection "forward" ["a", "b", "c", "d"]) =
      ["c", "d", "a", "b"] ∧
    applyDirection "reverse" ["a", "b", "c", "d"] = ["d", "c", "b", "a"] ∧
    rotateAtAnchor true root0 (some "c") (applyDirection "reverse" ["a", "b", "c", "d"]) =
      ["c", "b", "a", "d"] := by
  have hstruct : buildPlaylist root allow db shR shF fMtime req =
      rotateAtAnchor allow root req.current_path
        (playlistMid root allow db shR shF fMtime req) := by
    rw [buildPlaylist, if_neg hne, playlistMid]
  have hrot : buildPlaylist root allow db shR shF fMtime req =
      (playlistMid root allow db shR shF fMtime req).drop
          ((playlistMid root allow db shR shF fMtime req).indexOf
            (normalize_rel_path cp0)) ++
        (playlistMid root allow db shR shF fMtime req).take
          ((playlistMid root allow db shR shF fMtime req).indexOf
            (normalize_rel_path cp0)) := by
    rw [hstruct, hcur, rotateAtAnchor, if_neg h0, if_pos ⟨hcp, hok, hmem⟩]
  refine ⟨hstruct, hrot, ?_, by decide, by decide, by decide⟩
  rw [hrot]
  have hidx := List.indexOf_lt_length.2 hmem
  rw [List.drop_eq_getElem_cons hidx]
  simp [List.getElem_indexOf hidx]

/-- Witness for C6 (amended) at a concrete build: database {b.jpg, a.jpg},
name sort, reverse direction, anchor a.jpg. -/
theorem reverse_after_sort_then_rotate_witness :
    (buildPlaylist root0 true [ImageRecord.mk "b.jpg" 0 true, ImageRecord.mk "a.jpg" 0 true]
        id id (fun _ => 0) (PlaylistRequest.mk ["."] "name" "Both" "reverse" (some "a.jpg"))).head? =
      some (normalize_rel_path "a.jpg") :=
  (reverse_after_sort_then_rotate root0 true
    [ImageRecord.mk "b.jpg" 0 true, ImageRecord.mk "a.jpg" 0 true] id id (fun _ => 0)
    (PlaylistRequest.mk ["."] "name" "Both" "reverse" (some "a.jpg")) "a.jpg"
    (by decide) rfl (by decide) (by decide) (by decide) (by decide)).2.2.1

/-! ## Claim C7 -/

/-- C7: sorting by 'name' is the stable sort by the natural key — the result
is a permutation of the input that is sorted under the case-insensitive
natural order `nameLe`; the key is ASCII-case-insensitive and compares
embedded digit runs numerically ("img2" before "img10"); in particular
"img2.jpg", "img10.jpg", "img1.jpg" sort to
["img1.jpg", "img2.jpg", "img10.jpg"]. -/
theorem name_sort_natural_order :
    (∀ rs : List ImageRecord, sortByName rs ~ rs ∧ List.Sorted nameLe (sortByName rs)) ∧
    natural_sort_key "IMG2.JPG" = natural_sort_key "img2.jpg" ∧
    natural_sort_key "img2" < natural_sort_key "img10" ∧
    sortPhase id id (fun _ => 0) "name"
      [ImageRecord.mk "img2.jpg" 0 true, ImageRecord.mk "img10.jpg" 0 true,
       ImageRecord.mk "img1.jpg" 0 true] = ["img1.jpg", "img2.jpg", "img10.jpg"] := by
  refine ⟨?_, by decide, by decide, by decide⟩
  intro rs
  haveI : IsTotal ImageRecord nameLe := ⟨fun a b => le_total _ _⟩
  haveI : IsTrans ImageRecord nameLe := ⟨fun a b c hab hbc => le_trans hab hbc⟩
  exact ⟨List.perm_insertionSort _ _, List.sorted_insertionSort _ _⟩

/-! ## Claim C8 -/

/-- C8: the preload loop visits exactly the offsets -100..100 around the
center (201 visits, so the run always completes), wraps every computed index
modulo the playlist length — each wrapped index is in bounds, and every
offset in the window is represented — requests from the content cache every
visited path the filesystem oracle accepts regardless of other files
failing, and for playlist length 5, center 4, radius 1 the wrapped index
list is [3, 4, 0]. -/
theorem preload_circular_window
    (root : List String) (fsOk : List String → Bool) (playlist : List String)
    (center : Int) (h : playlist ≠ []) :
    (preloadIndicesW playlist.length center 100).length = 201 ∧
    (∀ i ∈ preloadIndicesW playlist.length center 100, i < playlist.length) ∧
    (∀ o : Int, -100 ≤ o → o ≤ 100 →
      ((center + o).emod (playlist.length : Int)).toNat ∈
        preloadIndicesW playlist.length center 100) ∧
    (∀ p ∈ preloadAttempts playlist center 100, fsOk (absJoin root p) = true →
      p ∈ (preload_surrounding_images root fsOk playlist center).1) ∧
    preloadIndicesW 5 4 1 = [3, 4, 0] := by
  have hpos : 0 < playlist.length := List.length_pos.2 h
  refine ⟨?_, ?_, ?_, ?_, by decide⟩
  · rw [preloadIndicesW, List.length_map, List.length_range]
  · intro i hi
    rcases List.mem_map.1 hi with ⟨k, -, hk⟩
    have h1 : (0 : Int) ≤ (center - (100 : Nat) + Int.ofNat k).emod (playlist.length : Int) :=
      Int.emod_nonneg _ (by exact_mod_cast Nat.pos_iff_ne_zero.1 hpos)
    have h2 : (center - (100 : Nat) + Int.ofNat k).emod (playlist.length : Int) <
        (playlist.length : Int) :=
      Int.emod_lt_of_pos _ (by exact_mod_cast hpos)
    omega
  · intro o ho1 ho2
    refine List.mem_map.2 ⟨(o + 100).toNat, ?_, ?_⟩
    · exact List.mem_range.2 (by omega)
    · have harg : center - ((100 : Nat) : Int) + Int.ofNat ((o + 100).toNat) =
          center + o := by
        rw [Int.ofNat_eq_coe]
        omega
      rw [harg]
  · intro p hp hfs
    rw [preload_surrounding_images, if_neg (by omega)]
    exact List.mem_filter.2 ⟨hp, hfs⟩

/-- Witness for C8 on the concrete five-element playlist with center 4. -/
theorem preload_circular_window_witness :
    (preloadIndicesW (["a", "b", "c", "d", "e"] : List String).length 4 100).length = 201 ∧
    ∀ i ∈ preloadIndicesW (["a", "b", "c", "d", "e"] : List String).length 4 100,
      i < (["a", "b", "c", "d", "e"] : List String).length :=
  ⟨(preload_circular_window root0 (fun _ => true) ["a", "b", "c", "d", "e"] 4
      (by decide)).1,
   (preload_circular_window root0 (fun _ => true) ["a", "b", "c", "d", "e"] 4
      (by decide)).2.1⟩

/-! ## Claim C9 -/

theorem syncTrace_count_le (allow : Bool) (root : List String) (e : String) :
    ∀ (reqs : List (List String)) (marker : List String),
      ((processSyncTrace allow root marker reqs).flatten.count e) ≤
        if e ∈ marker then 0 else 1 := by
  intro reqs
  induction reqs with
  | nil =>
    intro marker
    rw [processSyncTrace]
    simp
  | cons req rest ih =>
    intro marker
    rw [processSyncTrace, List.flatten_cons, List.count_append]
    have hnd : (syncStep allow root marker req).1.Nodup :=
      List.Nodup.filter _ (nodup_dedupKeepFirst _)
    by_cases hm : e ∈ marker
    · have h0 : e ∉ (syncStep allow root marker req).1 := by
        intro hmem
        have hfil := List.of_mem_filter hmem
        simp only [List.contains_eq_any_beq] at hfil
        rw [Bool.not_eq_true', ← List.contains_eq_any_beq] at hfil
        exact (by simpa using hfil : e ∉ marker) hm
      have hm2 : e ∈ (syncStep allow root marker req).2 := by
        rw [syncStep]
        exact List.mem_append.2 (Or.inl hm)
      have h2 := ih (syncStep allow root marker req).2
      rw [if_pos hm2] at h2
      rw [if_pos hm, List.count_eq_zero_of_not_mem h0]
      omega
    · rw [if_neg hm]
      have hc1 : (syncStep allow root marker req).1.count e ≤ 1 :=
        List.nodup_iff_count_le_one.1 hnd e
      have h2 := ih (syncStep allow root marker req).2
      by_cases hes : e ∈ (syncStep allow root marker req).1
      · have hm2 : e ∈ (syncStep allow root marker req).2 := by
          rw [syncStep]
          exact List.mem_append.2 (Or.inr hes)
        rw [if_pos hm2] at h2
        omega
      · rw [List.count_eq_zero_of_not_mem hes]
        by_cases hm2 : e ∈ (syncStep allow root marker req).2
        · rw [if_pos hm2] at h2
          omega
        · rw [if_neg hm2] at h2
          omega

/-- C9: the marker set of already-resynced external prefixes starts empty at
every process start (`lifespan` clears it), and along any sequence of
playlist requests within one process lifetime each prefix is heavy-resynced
at most once — in particular two builds referencing the same out-of-root
prefix trigger at most one resync of it. -/
theorem external_resync_at_most_once_per_boot :
    bootMarker = [] ∧
    ∀ (allow : Bool) (root : List String) (reqs : List (List String)) (e : String),
      ((processSyncTrace allow root bootMarker reqs).flatten.count e) ≤ 1 := by
  refine ⟨rfl, ?_⟩
  intro allow root reqs e
  have h := syncTrace_count_le allow root e reqs bootMarker
  rw [if_neg (by simp [bootMarker])] at h
  exact h

end GGallery
